import Mathlib

/-!
Verification of the hgecko pipeline core (src/main.rs).

Bytes are modelled as natural numbers below 256, a file as a `List Nat`,
and u32 arithmetic as natural-number arithmetic reduced modulo 2^32 at the
points where the Rust source relies on wrapping.  The patch encoder
`write_codes`, the header scanner `collect_headers` and the address sort of
`main` are embedded as executable functions below, and the stated
properties are proved about those functions.
-/

namespace Hgecko

/-- Record of one assembly source: injection address (a u32 value) and the
compiled machine-code bytes.  Mirrors `struct Code { addr: u32, code: Vec<u8> }`. -/
structure Code where
  addr : Nat
  code : List Nat
  deriving DecidableEq

/-- Big-endian byte decomposition of a u32 value, as in `u32::to_be_bytes`. -/
def u32be (n : Nat) : List Nat :=
  [n / 16777216 % 256, n / 65536 % 256, n / 256 % 256, n % 256]

/-- Model of `addr[0] |= tag`: OR a record-type tag into the first byte of the
big-endian address field. -/
def orFirst (bs : List Nat) (tag : Nat) : List Nat :=
  match bs with
  | [] => []
  | b :: rest => Nat.lor b tag :: rest

/-- Model of `(c.addr - 0x80000000).to_be_bytes()`.  The u32 subtraction wraps,
so it is modelled as addition of 2^32 - 0x80000000 = 0x80000000 modulo 2^32. -/
def offsetBytes (addr : Nat) : List Nat :=
  u32be ((addr + 2147483648) % 4294967296)

/-- Byte layout of one non-empty, 4-aligned record in the loop of
`write_codes`: tag 0x04 plus code for a single word, otherwise tag 0xC2,
the line count, the code, a 0x60000000 pad when the word count is even,
and a 4-byte zero filler. -/
def recBytes (c : Code) : List Nat :=
  if c.code.length = 4 then
    orFirst (offsetBytes c.addr) 4 ++ c.code
  else
    let codeWords := c.code.length / 4
    let codeLines := if codeWords % 2 = 0 then (codeWords + 2) / 2 else (codeWords + 1) / 2
    orFirst (offsetBytes c.addr) 194 ++ u32be codeLines ++ c.code
      ++ (if codeWords % 2 = 0 then [96, 0, 0, 0] else []) ++ [0, 0, 0, 0]

/-- One iteration of the loop of `write_codes`: a record with empty code is
skipped (contributes no bytes); `assert!(c.code.len() % 4 == 0)` is modelled
as `none` when it fires. -/
def encodeRecord (c : Code) : Option (List Nat) :=
  if c.code = [] then some []
  else if c.code.length % 4 = 0 then some (recBytes c) else none

/-- Concatenation of the per-record encodings, in sequence order. -/
def encodeRecords : List Code → Option (List Nat)
  | [] => some []
  | c :: rest =>
    match encodeRecord c, encodeRecords rest with
    | some e, some r => some (e ++ r)
    | _, _ => none

/-- Fixed magic header of the output: 00 D0 C0 DE repeated twice. -/
def magic : List Nat := [0, 208, 192, 222, 0, 208, 192, 222]

/-- Fixed 8-byte terminator of the output: F0 00 00 00 00 00 00 00. -/
def terminator : List Nat := [240, 0, 0, 0, 0, 0, 0, 0]

/-- Model of `write_codes`: the full output buffer built from a record
sequence, or `none` when the alignment assertion fires. -/
def write_codes (codes : List Code) : Option (List Nat) :=
  match encodeRecords codes with
  | some body => some (magic ++ body ++ terminator)
  | none => none

/-- Model of `codes.sort_by_key(|c| c.addr)` in `main`: Rust's sort is a
stable sort by key, embedded as a stable merge sort on the address. -/
def sortCodes (codes : List Code) : List Code :=
  List.mergeSort codes (fun a b => a.addr ≤ b.addr)

/-- Error outcomes of the per-file header parse in `collect_headers`. -/
inductive HeaderError where
  | missingAddress
  | notNewlineTerminated
  | ioError
  deriving DecidableEq

/-- Value of one ASCII hexadecimal digit, as matched in the scan of
`collect_headers` (decimal digits, lowercase a-f, uppercase A-F). -/
def hexVal (c : Nat) : Option Nat :=
  if 48 ≤ c ∧ c ≤ 57 then some (c - 48)
  else if 97 ≤ c ∧ c ≤ 102 then some (c - 97 + 10)
  else if 65 ≤ c ∧ c ≤ 70 then some (c - 65 + 10)
  else none

/-- Accumulating hexadecimal parse of a byte list: the u32 steps
`addr <<= 4; addr |= digit` are modelled as `(acc * 16 + digit) % 2^32`
(the ORed digit occupies the four bits the shift cleared), and a non-hex
byte aborts the window as `continue 'parse_addr` does. -/
def parseHex (acc : Nat) : List Nat → Option Nat
  | [] => some acc
  | c :: rest =>
    match hexVal c with
    | some v => parseHex ((acc * 16 + v) % 4294967296) rest
    | none => none

/-- Parse of one 8-byte window: skipped unless the first byte is the ASCII
digit 8 (byte value 56); otherwise every byte must be a hex digit. -/
def parseWindow (w : List Nat) : Option Nat :=
  match w with
  | c :: _ => if c = 56 then parseHex 0 w else none
  | [] => none

/-- Left-to-right scan over all 8-byte windows of the bytes read so far, as
in `buf[..read].windows(8)`: the first window that parses wins. -/
def scanWindows : List Nat → Option Nat
  | [] => none
  | c :: rest =>
    if 7 ≤ rest.length then
      match parseWindow (List.take 8 (c :: rest)) with
      | some a => some a
      | none => scanWindows rest
    else none

/-- Model of the labelled loop `'find_addr` of `collect_headers`.  The fixed
512-byte buffer appears as the bound 512; `sched k` drives how many bytes the
k-th successful `read` call returns (at least one, at most the space left in
the buffer and at most the bytes left in the file; a zero result models
end-of-file).  The fuel argument only bounds the iteration count and 513
units suffice for every run, since each iteration that continues reads at
least one byte into the 512-byte buffer. -/
def findAddrLoop (file : List Nat) (sched : Nat → Nat) :
    Nat → Nat → Nat → Except HeaderError Nat
  | 0, _, _ => Except.error HeaderError.ioError
  | fuel + 1, k, read =>
    if read = 512 then Except.error HeaderError.missingAddress
    else
      let n := min (min (sched k + 1) (512 - read)) (file.length - read)
      if n = 0 then Except.error HeaderError.missingAddress
      else
        match scanWindows (file.take (read + n)) with
        | some a => Except.ok a
        | none => findAddrLoop file sched fuel (k + 1) (read + n)

/-- Trailing-newline validation of `collect_headers`: seek to the last byte
(an I/O error when the file is empty) and require the newline byte 10. -/
def checkNewline (file : List Nat) : Except HeaderError Unit :=
  match file.getLast? with
  | none => Except.error HeaderError.ioError
  | some b =>
    if b = 10 then Except.ok () else Except.error HeaderError.notNewlineTerminated

/-- Header parse of a single file in `collect_headers`: locate the injection
address within the first 512 bytes, then check newline termination. -/
def collectHeader (file : List Nat) (sched : Nat → Nat) : Except HeaderError Nat :=
  match findAddrLoop file sched 513 0 0 with
  | Except.error e => Except.error e
  | Except.ok addr =>
    match checkNewline file with
    | Except.ok _ => Except.ok addr
    | Except.error e => Except.error e

/-- Helper for the tag computation: ORing into a zero high byte yields the
tag itself. -/
theorem lor_zero_left (n : Nat) : Nat.lor 0 n = n := Nat.zero_or n

/-- Helper: a window taken inside a list prefix coincides with the window of
the full list. -/
theorem take_window (l : List Nat) (m q : Nat) (h : q + 8 ≤ m) :
    ((l.take m).drop q).take 8 = (l.drop q).take 8 := by
  rw [List.drop_take, List.take_take]
  congr 1
  omega

/-- Helper: the scan returns nothing exactly when no complete window
parses. -/
theorem scanWindows_none_iff : ∀ l : List Nat,
    scanWindows l = none ↔
      ∀ q, q + 8 ≤ l.length → parseWindow ((l.drop q).take 8) = none
  | [] => by
    constructor
    · intro _ q hq
      rw [List.length_nil] at hq
      omega
    · intro _; rfl
  | c :: rest => by
    rw [scanWindows]
    by_cases h7 : 7 ≤ rest.length
    · rw [if_pos h7]
      cases hw : parseWindow (List.take 8 (c :: rest)) with
      | some a =>
        constructor
        · intro h; cases h
        · intro h
          have h0 := h 0 (by rw [List.length_cons]; omega)
          rw [List.drop_zero] at h0
          rw [h0] at hw; cases hw
      | none =>
        have hrec := scanWindows_none_iff rest
        constructor
        · intro h q hq
          cases q with
          | zero => rw [List.drop_zero]; exact hw
          | succ q =>
            rw [List.drop_succ_cons]
            exact (hrec.mp h) q (by rw [List.length_cons] at hq; omega)
        · intro h
          refine hrec.mpr ?_
          intro q hq
          have := h (q + 1) (by rw [List.length_cons]; omega)
          rw [List.drop_succ_cons] at this
          exact this
    · rw [if_neg h7]
      constructor
      · intro _ q hq
        rw [List.length_cons] at hq
        omega
      · intro _; rfl

/-- Helper: the scan returns the value of the leftmost parsing window. -/
theorem scanWindows_some_of : ∀ (l : List Nat) (p v : Nat),
    p + 8 ≤ l.length → parseWindow ((l.drop p).take 8) = some v →
    (∀ q < p, parseWindow ((l.drop q).take 8) = none) →
    scanWindows l = some v
  | [], p, v => by
    intro hp _ _
    rw [List.length_nil] at hp
    omega
  | c :: rest, p, v => by
    intro hp hw hleft
    rw [List.length_cons] at hp
    rw [scanWindows, if_pos (by omega : 7 ≤ rest.length)]
    cases p with
    | zero =>
      rw [List.drop_zero] at hw
      rw [hw]
    | succ p =>
      have h0 := hleft 0 (Nat.succ_pos p)
      rw [List.drop_zero] at h0
      rw [h0]
      rw [List.drop_succ_cons] at hw
      exact scanWindows_some_of rest p v (by omega) hw
        (fun q hq => by
          have := hleft (q + 1) (by omega)
          rw [List.drop_succ_cons] at this
          exact this)

/-- Helper: a successful scan exhibits a full parsing window. -/
theorem scanWindows_some_elim : ∀ (l : List Nat) (v : Nat),
    scanWindows l = some v →
    ∃ w, List.length w = 8 ∧ parseWindow w = some v
  | [], v => by intro h; cases h
  | c :: rest, v => by
    intro h
    rw [scanWindows] at h
    by_cases h7 : 7 ≤ rest.length
    · rw [if_pos h7] at h
      cases hw : parseWindow (List.take 8 (c :: rest)) with
      | some a =>
        rw [hw] at h
        injection h with h'
        subst h'
        exact ⟨List.take 8 (c :: rest),
          by rw [List.length_take, List.length_cons]; omega, hw⟩
      | none =>
        rw [hw] at h
        exact scanWindows_some_elim rest v h
    · rw [if_neg h7] at h; cases h

/-- Helper: once the bytes read cover the leftmost parsing window, the scan
loop returns that window's value, whatever the read schedule does. -/
theorem findAddrLoop_finds (file : List Nat) (sched : Nat → Nat) (p v : Nat)
    (hp512 : p + 8 ≤ 512) (hplen : p + 8 ≤ file.length)
    (hw : parseWindow ((file.drop p).take 8) = some v)
    (hleft : ∀ q < p, parseWindow ((file.drop q).take 8) = none) :
    ∀ fuel k read, read < p + 8 → 512 - read < fuel →
      findAddrLoop file sched fuel k read = Except.ok v := by
  intro fuel
  induction fuel with
  | zero => intro k read h1 h2; omega
  | succ fuel ih =>
    intro k read h1 h2
    simp only [findAddrLoop, if_neg (by omega : ¬ read = 512)]
    set n := min (min (sched k + 1) (512 - read)) (file.length - read) with hn
    rw [if_neg (by omega : ¬ n = 0)]
    by_cases hcov : p + 8 ≤ read + n
    · have hscan : scanWindows (file.take (read + n)) = some v := by
        refine scanWindows_some_of (file.take (read + n)) p v ?_ ?_ ?_
        · rw [List.length_take]; omega
        · rw [take_window file (read + n) p (by omega)]; exact hw
        · intro q hq
          rw [take_window file (read + n) q (by omega)]
          exact hleft q hq
      rw [hscan]
    · have hscan : scanWindows (file.take (read + n)) = none := by
        rw [scanWindows_none_iff]
        intro q hq
        rw [List.length_take] at hq
        rw [take_window file (read + n) q (by omega)]
        exact hleft q (by omega)
      rw [hscan]
      exact ih (k + 1) (read + n) (by omega) (by omega)

/-- Helper: when no window inside the 512-byte limit and inside the file
parses, the scan loop fails with a missing address, both by buffer
exhaustion and by end-of-file. -/
theorem findAddrLoop_missing (file : List Nat) (sched : Nat → Nat)
    (hnone : ∀ q, q + 8 ≤ 512 → q + 8 ≤ file.length →
      parseWindow ((file.drop q).take 8) = none) :
    ∀ fuel k read, read ≤ 512 → read ≤ file.length → 512 - read < fuel →
      findAddrLoop file sched fuel k read =
        Except.error HeaderError.missingAddress := by
  intro fuel
  induction fuel with
  | zero => intro k read h1 h2 h3; omega
  | succ fuel ih =>
    intro k read h1 h2 h3
    by_cases h512 : read = 512
    · simp only [findAddrLoop, if_pos h512]
    · simp only [findAddrLoop, if_neg h512]
      set n := min (min (sched k + 1) (512 - read)) (file.length - read) with hn
      by_cases hzero : n = 0
      · rw [if_pos hzero]
      · rw [if_neg hzero]
        have hscan : scanWindows (file.take (read + n)) = none := by
          rw [scanWindows_none_iff]
          intro q hq
          rw [List.length_take] at hq
          rw [take_window file (read + n) q (by omega)]
          exact hnone q (by omega) (by omega)
        rw [hscan]
        exact ih (k + 1) (read + n) (by omega) (by omega) (by omega)

/-- Helper: a successful scan loop got its value from a scan of some read
prefix of the file. -/
theorem findAddrLoop_ok_elim (file : List Nat) (sched : Nat → Nat) :
    ∀ (fuel k read v : Nat),
    findAddrLoop file sched fuel k read = Except.ok v →
    ∃ m, scanWindows (file.take m) = some v := by
  intro fuel
  induction fuel with
  | zero => intro k read v h; cases h
  | succ fuel ih =>
    intro k read v h
    simp only [findAddrLoop] at h
    by_cases h512 : read = 512
    · rw [if_pos h512] at h; cases h
    · rw [if_neg h512] at h
      set n := min (min (sched k + 1) (512 - read)) (file.length - read) with hn
      by_cases hzero : n = 0
      · rw [if_pos hzero] at h; cases h
      · rw [if_neg hzero] at h
        cases hscan : scanWindows (file.take (read + n)) with
        | some a =>
          rw [hscan] at h
          have h' : a = v := by injection h
          subst h'
          exact ⟨read + n, hscan⟩
        | none =>
          rw [hscan] at h
          exact ih (k + 1) (read + n) v h

/-- Helper: one accepted hex digit is below 16. -/
theorem hexVal_lt {c v : Nat} (h : hexVal c = some v) : v < 16 := by
  rw [hexVal] at h
  split_ifs at h with h1 h2 h3
  · injection h with h'; omega
  · injection h with h'; omega
  · injection h with h'; omega

/-- Helper: unfolding one accepted digit of the accumulating parse. -/
theorem parseHex_cons (acc c : Nat) (l : List Nat) (hv : Nat)
    (h : hexVal c = some hv) :
    parseHex acc (c :: l) = parseHex ((acc * 16 + hv) % 4294967296) l := by
  rw [parseHex, h]

/-- Helper: a full 8-byte window that parses has a value between 0x80000000
and 0x8FFFFFFF, since its first digit is 8 and seven hex digits follow. -/
theorem parseWindow_range (w : List Nat) (v : Nat)
    (hlen : List.length w = 8) (hw : parseWindow w = some v) :
    2147483648 ≤ v ∧ v ≤ 2415919103 := by
  rcases w with _ | ⟨c0, w⟩
  · simp only [List.length_nil] at hlen; omega
  rcases w with _ | ⟨c1, w⟩
  · simp only [List.length_cons, List.length_nil] at hlen; omega
  rcases w with _ | ⟨c2, w⟩
  · simp only [List.length_cons, List.length_nil] at hlen; omega
  rcases w with _ | ⟨c3, w⟩
  · simp only [List.length_cons, List.length_nil] at hlen; omega
  rcases w with _ | ⟨c4, w⟩
  · simp only [List.length_cons, List.length_nil] at hlen; omega
  rcases w with _ | ⟨c5, w⟩
  · simp only [List.length_cons, List.length_nil] at hlen; omega
  rcases w with _ | ⟨c6, w⟩
  · simp only [List.length_cons, List.length_nil] at hlen; omega
  rcases w with _ | ⟨c7, w⟩
  · simp only [List.length_cons, List.length_nil] at hlen; omega
  rcases w with _ | ⟨c8, w⟩
  swap
  · simp only [List.length_cons] at hlen; omega
  rw [parseWindow] at hw
  by_cases h0 : c0 = 56
  swap
  · rw [if_neg h0] at hw; cases hw
  rw [if_pos h0] at hw
  subst h0
  rw [parseHex_cons 0 56 _ 8 (by decide)] at hw
  cases h1 : hexVal c1 with
  | none => rw [parseHex, h1] at hw; cases hw
  | some v1 =>
  rw [parseHex_cons _ _ _ _ h1] at hw
  have b1 := hexVal_lt h1
  cases h2 : hexVal c2 with
  | none => rw [parseHex, h2] at hw; cases hw
  | some v2 =>
  rw [parseHex_cons _ _ _ _ h2] at hw
  have b2 := hexVal_lt h2
  cases h3 : hexVal c3 with
  | none => rw [parseHex, h3] at hw; cases hw
  | some v3 =>
  rw [parseHex_cons _ _ _ _ h3] at hw
  have b3 := hexVal_lt h3
  cases h4 : hexVal c4 with
  | none => rw [parseHex, h4] at hw; cases hw
  | some v4 =>
  rw [parseHex_cons _ _ _ _ h4] at hw
  have b4 := hexVal_lt h4
  cases h5 : hexVal c5 with
  | none => rw [parseHex, h5] at hw; cases hw
  | some v5 =>
  rw [parseHex_cons _ _ _ _ h5] at hw
  have b5 := hexVal_lt h5
  cases h6 : hexVal c6 with
  | none => rw [parseHex, h6] at hw; cases hw
  | some v6 =>
  rw [parseHex_cons _ _ _ _ h6] at hw
  have b6 := hexVal_lt h6
  cases h7 : hexVal c7 with
  | none => rw [parseHex, h7] at hw; cases hw
  | some v7 =>
  rw [parseHex_cons _ _ _ _ h7] at hw
  have b7 := hexVal_lt h7
  rw [parseHex] at hw
  injection hw with hv
  omega

/-- Helper: taking four elements of a list with at least four visible heads. -/
theorem take_four (a b c d : Nat) (l : List Nat) :
    List.take 4 (a :: b :: c :: d :: l) = [a, b, c, d] := rfl

/-- Helper: under the alignment precondition every record encodes, so the
record-sequence encoding succeeds. -/
theorem encodeRecords_total (codes : List Code)
    (h : ∀ c ∈ codes, c.code ≠ [] → c.code.length % 4 = 0) :
    ∃ body, encodeRecords codes = some body := by
  induction codes with
  | nil => exact ⟨[], rfl⟩
  | cons c rest ih =>
    obtain ⟨r, hr⟩ := ih (fun x hx => h x (List.mem_cons_of_mem c hx))
    by_cases hc : c.code = []
    · exact ⟨[] ++ r, by simp [encodeRecords, encodeRecord, hc, hr]⟩
    · have h4 := h c (List.mem_cons_self c rest) hc
      exact ⟨recBytes c ++ r, by simp [encodeRecords, encodeRecord, hc, h4, hr]⟩

/-- Helper: under the alignment precondition the record-sequence encoding is
the concatenation of the layouts of the records with non-empty code, in
sequence order. -/
theorem encodeRecords_eq (codes : List Code)
    (h : ∀ c ∈ codes, c.code ≠ [] → c.code.length % 4 = 0) :
    encodeRecords codes =
      some ((codes.filter (fun c => !c.code.isEmpty)).flatMap recBytes) := by
  induction codes with
  | nil => rfl
  | cons c rest ih =>
    have ihr := ih (fun x hx => h x (List.mem_cons_of_mem c hx))
    by_cases hc : c.code = []
    · simp [encodeRecords, encodeRecord, hc, ihr, List.filter_cons]
    · have h4 := h c (List.mem_cons_self c rest) hc
      simp [encodeRecords, encodeRecord, hc, h4, ihr, List.filter_cons]

/-- C1 (corrected): a record of exactly 4 code bytes at address 0x80001234
encodes as exactly 8 bytes, the tagged address field [0x04, 0x00, 0x12, 0x34]
followed by the 4 code bytes.  The tag byte is 0x04, not 0x84 as claimed:
the tag is ORed into the high byte of the offset 0x00001234 after the base
0x80000000 has been subtracted. -/
theorem c1_single_word_record (code : List Nat) (h : code.length = 4) :
    encodeRecord ⟨2147488308, code⟩ = some ([4, 0, 18, 52] ++ code) ∧
    ([4, 0, 18, 52] ++ code).length = 8 := by
  have hne : code ≠ [] := by intro hc; rw [hc] at h; exact absurd h (by decide)
  refine ⟨?_, by simp [h]⟩
  rw [encodeRecord, if_neg hne, if_pos (by rw [h])]
  rw [recBytes, if_pos h]
  norm_num [offsetBytes, u32be, orFirst, lor_zero_left]

/-- C1 witness: the corrected encoding evaluated on the concrete code bytes
[1, 2, 3, 4]. -/
theorem c1_single_word_record_witness :
    encodeRecord ⟨2147488308, [1, 2, 3, 4]⟩ = some ([4, 0, 18, 52] ++ [1, 2, 3, 4]) ∧
    ([4, 0, 18, 52] ++ [1, 2, 3, 4]).length = 8 :=
  c1_single_word_record [1, 2, 3, 4] rfl

/-- C1 counterexample: at address 0x80001234 with 4 code bytes the encoder
emits the tagged address field [0x04, 0x00, 0x12, 0x34], not the
[0x84, 0x00, 0x12, 0x34] stated by the claim. -/
theorem c1_counterexample :
    encodeRecord ⟨2147488308, [1, 2, 3, 4]⟩ ≠ some ([132, 0, 18, 52] ++ [1, 2, 3, 4]) ∧
    encodeRecord ⟨2147488308, [1, 2, 3, 4]⟩ = some ([4, 0, 18, 52] ++ [1, 2, 3, 4]) := by
  decide

/-- C2 (corrected): for every non-empty 4-aligned record whose address lies in
[0x80000000, 0x81000000), the first four output bytes are exactly the
record-type tag (0x04 for a 4-byte record, 0xC2 otherwise) followed by the
24-bit offset address - 0x80000000 in big-endian order.  For addresses at or
above 0x81000000 the offset no longer fits in 24 bits and the high byte
differs from the bare tag, so the claim's address range must be narrowed. -/
theorem c2_tagged_address_field (c : Code)
    (h1 : 2147483648 ≤ c.addr) (h2 : c.addr < 2164260864)
    (h3 : c.code ≠ []) (h4 : c.code.length % 4 = 0) :
    (encodeRecord c).map (List.take 4) =
      some [(if c.code.length = 4 then 4 else 194),
            (c.addr - 2147483648) / 65536 % 256,
            (c.addr - 2147483648) / 256 % 256,
            (c.addr - 2147483648) % 256] := by
  have hoff : (c.addr + 2147483648) % 4294967296 = c.addr - 2147483648 := by omega
  have hb : (c.addr - 2147483648) / 16777216 % 256 = 0 := by omega
  by_cases h5 : c.code.length = 4
  · rw [encodeRecord, if_neg h3, if_pos h4, recBytes, if_pos h5]
    norm_num [offsetBytes, u32be, orFirst, hoff, hb, lor_zero_left, take_four, h5]
  · rw [encodeRecord, if_neg h3, if_pos h4, recBytes, if_neg h5]
    norm_num [offsetBytes, u32be, orFirst, hoff, hb, lor_zero_left, take_four, h5]

/-- C2 witness: the corrected tagged-address property evaluated at address
0x80001234 with 4 concrete code bytes. -/
theorem c2_tagged_address_field_witness :
    (encodeRecord ⟨2147488308, [1, 2, 3, 4]⟩).map (List.take 4) =
      some [(if ([1, 2, 3, 4] : List Nat).length = 4 then 4 else 194),
            (2147488308 - 2147483648) / 65536 % 256,
            (2147488308 - 2147483648) / 256 % 256,
            (2147488308 - 2147483648) % 256] :=
  c2_tagged_address_field ⟨2147488308, [1, 2, 3, 4]⟩ (by decide) (by decide)
    (by decide) (by decide)

/-- C2 counterexample: at address 0x81000000 (which satisfies the claim's
only stated bound, address at least 0x80000000) the 4-byte record's emitted
high byte is 0x05 = 0x01 OR 0x04, not the bare tag 0x04 the claim states. -/
theorem c2_counterexample :
    encodeRecord ⟨2164260864, [1, 2, 3, 4]⟩ = some [5, 0, 0, 0, 1, 2, 3, 4] ∧
    (5 : Nat) ≠ 4 := by
  decide

/-- C6 (confirmed): an 8-byte (two-word) record at address 0x80000100 encodes
as the tagged address [0xC2, 0x00, 0x01, 0x00], the big-endian line count
[0x00, 0x00, 0x00, 0x02] (with the count (w+2)/2 for even word count w and
(w+1)/2 for odd), the 8 code bytes, one 0x60000000 padding word, and a 4-byte
zero filler; moreover in every multi-word record the trailer adds 8 bytes when
the word count is even (pad word plus filler) and only the 4 filler bytes when
it is odd. -/
theorem c6_even_multi_word (code : List Nat) (h : code.length = 8) :
    encodeRecord ⟨2147483904, code⟩ =
      some ([194, 0, 1, 0] ++ [0, 0, 0, 2] ++ code ++ [96, 0, 0, 0] ++ [0, 0, 0, 0]) ∧
    ∀ c : Code, c.code ≠ [] → c.code.length % 4 = 0 → c.code.length ≠ 4 →
      (encodeRecord c).map List.length =
        some (8 + c.code.length + if c.code.length / 4 % 2 = 0 then 8 else 4) := by
  constructor
  · have hne : code ≠ [] := by intro hc; rw [hc] at h; exact absurd h (by decide)
    rw [encodeRecord, if_neg hne, if_pos (by rw [h])]
    rw [recBytes, if_neg (by rw [h]; decide)]
    norm_num [h, offsetBytes, u32be, orFirst, lor_zero_left]
  · intro c h1 h2 h3
    rw [encodeRecord, if_neg h1, if_pos h2, recBytes, if_neg h3]
    by_cases hp : c.code.length / 4 % 2 = 0 <;>
      norm_num [offsetBytes, u32be, orFirst, hp] <;> omega

/-- C6 witness: the two-word round trip on concrete bytes, and the trailer
length on a concrete even-word record. -/
theorem c6_even_multi_word_witness :
    encodeRecord ⟨2147483904, [10, 20, 30, 40, 50, 60, 70, 80]⟩ =
      some ([194, 0, 1, 0] ++ [0, 0, 0, 2] ++ [10, 20, 30, 40, 50, 60, 70, 80]
        ++ [96, 0, 0, 0] ++ [0, 0, 0, 0]) ∧
    (encodeRecord ⟨2147483648, [1, 2, 3, 4, 5, 6, 7, 8]⟩).map List.length =
      some (8 + ([1, 2, 3, 4, 5, 6, 7, 8] : List Nat).length +
        if ([1, 2, 3, 4, 5, 6, 7, 8] : List Nat).length / 4 % 2 = 0 then 8 else 4) :=
  ⟨(c6_even_multi_word [10, 20, 30, 40, 50, 60, 70, 80] rfl).1,
   (c6_even_multi_word [10, 20, 30, 40, 50, 60, 70, 80] rfl).2
     ⟨2147483648, [1, 2, 3, 4, 5, 6, 7, 8]⟩ (by decide) (by decide) (by decide)⟩

/-- C7 (confirmed): for every record sequence satisfying the data-model
alignment invariant, the output is exactly the 8-byte magic header, then the
per-record layouts of the records with non-empty code in sequence order
(empty-code records are filtered out and contribute nothing), then the 8-byte
terminator; as a Lean function of the record sequence the output is
deterministic. -/
theorem c7_output_layout (codes : List Code)
    (h : ∀ c ∈ codes, c.code ≠ [] → c.code.length % 4 = 0) :
    write_codes codes =
      some (magic ++ (codes.filter (fun c => !c.code.isEmpty)).flatMap recBytes
        ++ terminator) := by
  simp [write_codes, encodeRecords_eq codes h]

/-- C7 witness: the layout theorem evaluated on a concrete two-record
sequence whose second record has empty code. -/
theorem c7_output_layout_witness :
    write_codes [⟨2147488308, [1, 2, 3, 4]⟩, ⟨2147483648, []⟩] =
      some (magic ++
        (([⟨2147488308, [1, 2, 3, 4]⟩, ⟨2147483648, []⟩] : List Code).filter
          (fun c => !c.code.isEmpty)).flatMap recBytes ++ terminator) :=
  c7_output_layout [⟨2147488308, [1, 2, 3, 4]⟩, ⟨2147483648, []⟩] (by decide)

/-- C9 (confirmed): a non-empty record whose code length is not a multiple of
4 trips the encoder's hard assertion (modelled as `none`), and under the
precondition that every non-empty record is 4-aligned the assertion is
unreachable and encoding is total. -/
theorem c9_alignment_assertion :
    (∀ c : Code, c.code ≠ [] → c.code.length % 4 ≠ 0 → encodeRecord c = none) ∧
    (∀ codes : List Code, (∀ c ∈ codes, c.code ≠ [] → c.code.length % 4 = 0) →
      ∃ out, write_codes codes = some out) := by
  constructor
  · intro c h1 h2
    simp [encodeRecord, h1, h2]
  · intro codes h
    obtain ⟨body, hb⟩ := encodeRecords_total codes h
    exact ⟨magic ++ body ++ terminator, by simp [write_codes, hb]⟩

/-- C8 (confirmed): the sort performed immediately before encoding orders
records by ascending address (every later record has an address at least as
large), preserves the relative discovery order of records with equal
addresses (filtering the sorted sequence to any one address yields the same
list as filtering the input), and on the discovery order
[0x80002000, 0x80001000 (A), 0x80001000 (B)] produces
[0x80001000 (A), 0x80001000 (B), 0x80002000]. -/
theorem c8_stable_sort_by_address :
    (∀ codes : List Code,
      (sortCodes codes).Pairwise (fun a b => a.addr ≤ b.addr)) ∧
    (∀ (codes : List Code) (a : Nat),
      (sortCodes codes).filter (fun c => c.addr == a) =
        codes.filter (fun c => c.addr == a)) ∧
    sortCodes [⟨2147491840, [1]⟩, ⟨2147487744, [2]⟩, ⟨2147487744, [3]⟩] =
      [⟨2147487744, [2]⟩, ⟨2147487744, [3]⟩, ⟨2147491840, [1]⟩] := by
  have htr : ∀ a b c : Code, (decide (a.addr ≤ b.addr)) = true →
      (decide (b.addr ≤ c.addr)) = true → (decide (a.addr ≤ c.addr)) = true := by
    intro a b c h1 h2
    simp only [decide_eq_true_eq] at h1 h2 ⊢
    omega
  have hto : ∀ a b : Code,
      ((decide (a.addr ≤ b.addr)) || (decide (b.addr ≤ a.addr))) = true := by
    intro a b
    simpa using Nat.le_total a.addr b.addr
  refine ⟨?_, ?_, ?_⟩
  · intro codes
    rw [sortCodes]
    exact (List.sorted_mergeSort htr hto codes).imp (fun h => of_decide_eq_true h)
  · intro codes a
    rw [sortCodes]
    have hpw : (codes.filter (fun c => c.addr == a)).Pairwise
        (fun x y : Code => (decide (x.addr ≤ y.addr)) = true) := by
      refine List.pairwise_of_forall_mem_list ?_
      intro x hx y hy
      have hxa : x.addr = a := by simpa using (List.mem_filter.mp hx).2
      have hya : y.addr = a := by simpa using (List.mem_filter.mp hy).2
      simp [hxa, hya]
    have hsub := List.sublist_mergeSort htr hto hpw
      (List.filter_sublist codes)
    have hself : (codes.filter (fun c => c.addr == a)).filter
        (fun c => c.addr == a) = codes.filter (fun c => c.addr == a) :=
      List.filter_eq_self.mpr (fun x hx => (List.mem_filter.mp hx).2)
    have hsubf := hsub.filter (fun c => c.addr == a)
    rw [hself] at hsubf
    have hlen : (codes.filter (fun c => c.addr == a)).length =
        ((List.mergeSort codes (fun x y => x.addr ≤ y.addr)).filter
          (fun c => c.addr == a)).length :=
      (((List.mergeSort_perm codes _).filter (fun c => c.addr == a)).length_eq).symm
    exact (hsubf.eq_of_length hlen).symm
  · simp [sortCodes, List.mergeSort, List.splitInTwo, List.merge]

/-- C9 witness: the assertion fires on a concrete 1-byte record, and a
concrete aligned sequence encodes totally. -/
theorem c9_alignment_assertion_witness :
    encodeRecord ⟨2147483648, [1]⟩ = none ∧
    ∃ out, write_codes [⟨2147483648, [1, 2, 3, 4]⟩] = some out :=
  ⟨c9_alignment_assertion.1 ⟨2147483648, [1]⟩ (by decide) (by decide),
   c9_alignment_assertion.2 [⟨2147483648, [1, 2, 3, 4]⟩] (by decide)⟩

/-- C3 (confirmed): for every newline-terminated file whose leftmost valid
address token (8 contiguous hex bytes, the first being the ASCII digit 8)
lies entirely within the first 512 bytes, at position p and with integer
value v, the header parse succeeds and returns exactly v, whatever the read
schedule does. -/
theorem c3_leftmost_token_value (file : List Nat) (sched : Nat → Nat)
    (p v : Nat)
    (hp512 : p + 8 ≤ 512) (hplen : p + 8 ≤ file.length)
    (hw : parseWindow ((file.drop p).take 8) = some v)
    (hleft : ∀ q < p, parseWindow ((file.drop q).take 8) = none)
    (hnl : file.getLast? = some 10) :
    collectHeader file sched = Except.ok v := by
  rw [collectHeader,
    findAddrLoop_finds file sched p v hp512 hplen hw hleft 513 0 0 (by omega) (by omega)]
  simp only [checkNewline, hnl]
  rfl

/-- C3 witness: the file 80001234 followed by a newline parses to
0x80001234 with its token at position 0. -/
theorem c3_leftmost_token_value_witness :
    collectHeader [56, 48, 48, 48, 49, 50, 51, 52, 10] (fun _ => 600) =
      Except.ok 2147488308 :=
  c3_leftmost_token_value [56, 48, 48, 48, 49, 50, 51, 52, 10] (fun _ => 600) 0
    2147488308 (by decide) (by decide) (by decide)
    (fun q hq => absurd hq (Nat.not_lt_zero q)) (by decide)

/-- C4 (corrected): the newline check runs only after an address has been
found, so the claim holds for files that do contain a valid address token in
their first 512 bytes: if the leftmost token parses and the last byte is not
a newline, the parse fails with NotNewlineTerminated.  For a file with no
token the parse fails with MissingAddress instead, contradicting the claim's
clause that the token's presence is irrelevant. -/
theorem c4_not_newline_terminated (file : List Nat) (sched : Nat → Nat)
    (p v b : Nat)
    (hp512 : p + 8 ≤ 512) (hplen : p + 8 ≤ file.length)
    (hw : parseWindow ((file.drop p).take 8) = some v)
    (hleft : ∀ q < p, parseWindow ((file.drop q).take 8) = none)
    (hb : file.getLast? = some b) (hnb : b ≠ 10) :
    collectHeader file sched = Except.error HeaderError.notNewlineTerminated := by
  rw [collectHeader,
    findAddrLoop_finds file sched p v hp512 hplen hw hleft 513 0 0 (by omega) (by omega)]
  simp only [checkNewline, hb]
  rw [if_neg hnb]

/-- C4 witness: the file 80001234 followed by the byte a (no trailing
newline) fails with NotNewlineTerminated. -/
theorem c4_not_newline_terminated_witness :
    collectHeader [56, 48, 48, 48, 49, 50, 51, 52, 97] (fun _ => 600) =
      Except.error HeaderError.notNewlineTerminated :=
  c4_not_newline_terminated [56, 48, 48, 48, 49, 50, 51, 52, 97] (fun _ => 600) 0
    2147488308 97 (by decide) (by decide) (by decide)
    (fun q hq => absurd hq (Nat.not_lt_zero q)) (by decide) (by decide)

/-- C4 counterexample: the single-byte file a does not end in a newline, yet
the parse fails with MissingAddress, not NotNewlineTerminated, because the
missing address token is detected first. -/
theorem c4_counterexample :
    ([97] : List Nat).getLast? = some 97 ∧
    collectHeader [97] (fun _ => 0) = Except.error HeaderError.missingAddress ∧
    (Except.error HeaderError.missingAddress :
      Except HeaderError Nat) ≠ Except.error HeaderError.notNewlineTerminated := by
  refine ⟨rfl, rfl, ?_⟩
  intro h
  injection h with h'
  cases h'

/-- C5 (confirmed): when no 8-byte window lying inside both the 512-byte
limit and the file parses as an address token, the parse fails with
MissingAddress — the loop reaches this outcome both through the buffer-full
check and through the end-of-file check, and bytes beyond the first 512 are
never consulted. -/
theorem c5_missing_address (file : List Nat) (sched : Nat → Nat)
    (hnone : ∀ q, q + 8 ≤ 512 → q + 8 ≤ file.length →
      parseWindow ((file.drop q).take 8) = none) :
    collectHeader file sched = Except.error HeaderError.missingAddress := by
  rw [collectHeader,
    findAddrLoop_missing file sched hnone 513 0 0 (by omega) (by omega) (by omega)]

/-- C5 witness: a two-byte file with no token fails with MissingAddress. -/
theorem c5_missing_address_witness :
    collectHeader [97, 10] (fun _ => 600) =
      Except.error HeaderError.missingAddress :=
  c5_missing_address [97, 10] (fun _ => 600)
    (fun q h1 h2 =>
      absurd h2 (by simp only [List.length_cons, List.length_nil]; omega))

/-- C10 (confirmed): every address the header parse returns lies in
[0x80000000, 0x8FFFFFFF], since the accepted token starts with the hex digit
8 and has seven further hex digits; consequently the encoder's wrapping
subtraction of the base never underflows and computes the true difference. -/
theorem c10_parsed_address_range (file : List Nat) (sched : Nat → Nat) (a : Nat)
    (h : collectHeader file sched = Except.ok a) :
    2147483648 ≤ a ∧ a ≤ 2415919103 ∧
    offsetBytes a = u32be (a - 2147483648) := by
  have key : 2147483648 ≤ a ∧ a ≤ 2415919103 := by
    rw [collectHeader] at h
    cases hf : findAddrLoop file sched 513 0 0 with
    | error e => rw [hf] at h; cases h
    | ok addr =>
      rw [hf] at h
      have haddr : addr = a := by
        cases hc : checkNewline file with
        | ok u => rw [hc] at h; injection h
        | error e => rw [hc] at h; cases h
      subst haddr
      obtain ⟨m, hm⟩ := findAddrLoop_ok_elim file sched 513 0 0 addr hf
      obtain ⟨w, hwlen, hwv⟩ := scanWindows_some_elim (file.take m) addr hm
      exact parseWindow_range w addr hwlen hwv
  refine ⟨key.1, key.2, ?_⟩
  rw [offsetBytes]
  exact congrArg u32be (by omega)

set_option maxRecDepth 40000 in
/-- C10 witness: the range property evaluated on the parse of the concrete
file 80001234 with a trailing newline. -/
theorem c10_parsed_address_range_witness :
    2147483648 ≤ 2147488308 ∧ 2147488308 ≤ 2415919103 ∧
    offsetBytes 2147488308 = u32be (2147488308 - 2147483648) :=
  c10_parsed_address_range [56, 48, 48, 48, 49, 50, 51, 52, 10] (fun _ => 600)
    2147488308 (by rfl)

end Hgecko
